import Mathlib

/-!
Shallow embedding of the `mtx` library (mtx.go): a lock-guarded value of type
`T`, with scoped-access combinators and the map / slice / number operation sets
layered on top of them.  The embedding is sequential: a guarded value is a
record holding the protected value together with a `locked` flag, and each
operation maps the state before the call to the state after it.  A Go closure
`func(v *T) error` that mutates `*v` in place and returns an error is modelled
as a function `T → T × Option ε`; a closure that only reads is `T → ρ`.
Run-time panics of the slice operations (indexing an empty or out-of-range
position) are modelled by `Except`, returning alongside the value state the
slice contents at the moment the panic aborts the closure.
-/

namespace Mtx

/-- Error taxonomy for the slice operations: `emptyContainer` is the panic of
`shift`/`pop` indexing an empty slice, `indexOutOfRange` the panic of
`get`/`insert`/`remove` with an out-of-bounds index. -/
inductive MtxError where
  | emptyContainer
  | indexOutOfRange
deriving DecidableEq, Repr

/-- A mutex-guarded value: `base[M, T]` of mtx.go, with the lock state made
explicit (`locked = true` while the critical section runs). -/
structure Guarded (T : Type u) where
  locked : Bool
  v : T
deriving Repr

/-- withE: `m.Lock(); defer m.Unlock(); return clb(getPointer(m))`.
The closure receives the current value and yields the mutated value plus the
error it returns; the lock is taken before the call and released after it. -/
def withE {T : Type u} {ε : Type w} (m : Guarded T) (clb : T → T × Option ε) :
    Guarded T × Option ε :=
  let m1 : Guarded T := { m with locked := true }
  let r := clb m1.v
  ({ locked := false, v := r.1 }, r.2)

/-- rWithE: `m.RLock(); defer m.RUnlock(); return clb(*getPointer(m))`.
Read-only: the closure sees the value and returns only an error. -/
def rWithE {T : Type u} {ε : Type w} (m : Guarded T) (clb : T → Option ε) :
    Guarded T × Option ε :=
  let m1 : Guarded T := { m with locked := true }
  ({ m1 with locked := false }, clb m1.v)

/-- withOut: `with(m, clb)` where the Go closure both mutates `*v` and writes a
captured `out` variable (possibly aborting with a panic encoded inside `ρ`).
The closure yields the value state at exit together with that result. -/
def withOut {T : Type u} {ρ : Type w} (m : Guarded T) (clb : T → T × ρ) :
    Guarded T × ρ :=
  let m1 : Guarded T := { m with locked := true }
  let r := clb m1.v
  ({ locked := false, v := r.1 }, r.2)

/-- rWithOut: `rWith(m, clb)` where the read-only closure writes a captured
`out` variable. -/
def rWithOut {T : Type u} {ρ : Type w} (m : Guarded T) (clb : T → ρ) :
    Guarded T × ρ :=
  let m1 : Guarded T := { m with locked := true }
  ({ m1 with locked := false }, clb m1.v)

/-- withGo: `with(m, clb)`, i.e. `withE` with a closure returning a nil
error, the error discarded. -/
def withGo {T : Type u} (m : Guarded T) (clb : T → T) : Guarded T :=
  (withE m (fun v => (clb v, (none : Option Unit)))).1

/-- store: `with(m, func(v *T) { *v = newV })`. -/
def store {T : Type u} (m : Guarded T) (newV : T) : Guarded T :=
  withGo m (fun _ => newV)

/-- load: `rWith(m, func(v T) { out = v }); return out`. -/
def load {T : Type u} (m : Guarded T) : Guarded T × T :=
  rWithOut m (fun v => v)

/-- swap: `with(m, func(v *T) { old, *v = *v, newVal }); return old`. -/
def swap {T : Type u} (m : Guarded T) (newVal : T) : Guarded T × T :=
  withOut m (fun v => (newVal, v))

/-- unshift: `with(m, func(v *T) { *v = append([]E{el}, *v...) })`. -/
def unshift {E : Type u} (m : Guarded (List E)) (el : E) : Guarded (List E) :=
  withGo m (fun s => el :: s)

/-- shift: `with(m, func(v *T) { out, *v = (*v)[0], (*v)[1:] })`.
On an empty slice `(*v)[0]` panics before any assignment, so the value is
left unchanged. -/
def shift {E : Type u} (m : Guarded (List E)) :
    Guarded (List E) × Except MtxError E :=
  withOut m (fun s =>
    match s with
    | [] => (s, Except.error MtxError.emptyContainer)
    | x :: xs => (xs, Except.ok x))

/-- pop: `with(m, func(v *T) { out, *v = (*v)[len(*v)-1], (*v)[:len(*v)-1] })`.
On an empty slice `(*v)[len-1]` is `(*v)[-1]` and panics before any
assignment. -/
def pop {E : Type u} (m : Guarded (List E)) :
    Guarded (List E) × Except MtxError E :=
  withOut m (fun s =>
    match s with
    | [] => ([], Except.error MtxError.emptyContainer)
    | x :: xs =>
      ((x :: xs).dropLast, Except.ok ((x :: xs).getLast (List.cons_ne_nil x xs))))

/-- get: `rWith(m, func(v T) { out = (v)[i] })`; read-only, panics when the
index is out of range. -/
def sliceGet {E : Type u} (m : Guarded (List E)) (i : Int) :
    Guarded (List E) × Except MtxError E :=
  rWithOut m (fun s =>
    if h : 0 ≤ i ∧ i < (s.length : Int) then
      Except.ok (s.get ⟨i.toNat, by omega⟩)
    else Except.error MtxError.indexOutOfRange)

/-- insert: `with(m, func(v *T) { var zero E; *v = append(*v, zero);
copy((*v)[i+1:], (*v)[i:]); (*v)[i] = el })`.  The zero value is appended
before the index is validated: when `i < 0` or `i > len(*v)` the slice
expression `(*v)[i+1:]` (or `(*v)[i:]`) panics, leaving the appended zero
behind.  For a valid `i` the `copy` shifts positions `i..len-1` one slot to
the right and the assignment writes `el` at position `i`. -/
def insert {E : Type u} [Inhabited E] (m : Guarded (List E)) (i : Int) (el : E) :
    Guarded (List E) × Except MtxError Unit :=
  withOut m (fun s =>
    let s1 := s ++ [(default : E)]
    if 0 ≤ i ∧ i ≤ (s.length : Int) then
      let n := i.toNat
      (((s1.take (n + 1)) ++ (s1.drop n).take (s.length - n)).set n el,
       Except.ok ())
    else (s1, Except.error MtxError.indexOutOfRange))

/-- sliceRemove: `with(m, func(v *T) { out = (*v)[i];
*v = (*v)[:i+copy((*v)[i:], (*v)[i+1:])] })`.  `(*v)[i]` is evaluated first,
so an out-of-range index panics with the slice unchanged; for a valid `i` the
`copy` shifts the elements after `i` one slot left and the reslice keeps the
first `len-1` elements, i.e. `take i ++ drop (i+1)`. -/
def sliceRemove {E : Type u} (m : Guarded (List E)) (i : Int) :
    Guarded (List E) × Except MtxError E :=
  withOut m (fun s =>
    if h : 0 ≤ i ∧ i < (s.length : Int) then
      (s.take i.toNat ++ s.drop (i.toNat + 1),
       Except.ok (s.get ⟨i.toNat, by omega⟩))
    else (s, Except.error MtxError.indexOutOfRange))

/-- filter: `rWith(m, ...)` building `out` with `out = make([]E, 0)` and
appending every element satisfying `keep`, in traversal order. -/
def filter {E : Type u} (m : Guarded (List E)) (keep : E → Bool) :
    Guarded (List E) × List E :=
  rWithOut m (fun s =>
    s.foldl (fun out x => if keep x then out ++ [x] else out) [])

/-- add: `with(m, func(v *T) { *v += diff })`. -/
def add {T : Type u} [Add T] (m : Guarded T) (diff : T) : Guarded T :=
  withGo m (fun v => v + diff)

/-- sub: `with(m, func(v *T) { *v -= diff })`. -/
def sub {T : Type u} [Sub T] (m : Guarded T) (diff : T) : Guarded T :=
  withGo m (fun v => v - diff)

/-- A Go `map[K]V` modelled as an association list (unordered, key-unique by
construction of the operations below). -/
abbrev AssocMap (K V : Type u) := List (K × V)

/-- Lookup `mm[k]`: the value bound to `k`, if any. -/
def goLookup {K V : Type u} [DecidableEq K] (l : AssocMap K V) (k : K) :
    Option V :=
  (l.find? (fun p => decide (p.1 = k))).map Prod.snd

/-- Go `delete(*m, k)`: drops every binding of `k` (a Go map holds at most
one). -/
def goDelete {K V : Type u} [DecidableEq K] (l : AssocMap K V) (k : K) :
    AssocMap K V :=
  l.filter (fun p => decide (p.1 ≠ k))

/-- Go map assignment `(*m)[k] = v`: an unconditional upsert. -/
def goStoreKey {K V : Type u} [DecidableEq K] (l : AssocMap K V) (k : K)
    (v : V) : AssocMap K V :=
  goDelete l k ++ [(k, v)]

/-- mapInsert: `with(m, func(m *T) { (*m)[k] = v })`. -/
def mapInsert {K V : Type u} [DecidableEq K] (m : Guarded (AssocMap K V))
    (k : K) (v : V) : Guarded (AssocMap K V) :=
  withGo m (fun l => goStoreKey l k v)

/-- containsKey: `rWith(m, func(mm T) { _, found = mm[k] })`. -/
def containsKey {K V : Type u} [DecidableEq K] (m : Guarded (AssocMap K V))
    (k : K) : Guarded (AssocMap K V) × Bool :=
  rWithOut m (fun l => (goLookup l k).isSome)

/-- mapRemove: `with(m, func(m *T) { if out, ok = (*m)[k]; ok {
delete(*m, k) } })`.  Returns `some v` when the key was bound to `v` (and
deletes it), `none` when absent (the map untouched, `out` left at the zero
value). -/
def mapRemove {K V : Type u} [DecidableEq K] (m : Guarded (AssocMap K V))
    (k : K) : Guarded (AssocMap K V) × Option V :=
  withOut m (fun l =>
    match goLookup l k with
    | some v => (goDelete l k, some v)
    | none => (l, none))

/-- Small-step model of concurrent `Add`/`Sub` callers: a finite index type
`ι` of threads, each with a program of remaining deltas, one exclusive lock,
a per-thread register holding the value read under the lock, and the shared
number.  `add(d)` is `with(m, func(v *T) { *v += d })` — lock, read, write
back the read value plus `d`, unlock — and `sub(d)` is its `-d` instance. -/
structure NumState (ι : Type) where
  lock : Option ι
  reg : ι → Int
  prog : ι → List Int
  shared : Int

/-- One scheduler step: a thread with work left acquires the free lock and
reads the shared value into its register, or the lock holder writes back its
register plus its current delta and releases the lock, completing that call.
Both the read and the write happen while holding the lock, as in `with`. -/
inductive NumStep {ι : Type} [DecidableEq ι] : NumState ι → NumState ι → Prop where
  | acquire (s : NumState ι) (t : ι) (d : Int) (rest : List Int)
      (hfree : s.lock = none) (hp : s.prog t = d :: rest) :
      NumStep s { s with lock := some t, reg := Function.update s.reg t s.shared }
  | commit (s : NumState ι) (t : ι) (d : Int) (rest : List Int)
      (hlock : s.lock = some t) (hp : s.prog t = d :: rest) :
      NumStep s { lock := none, reg := s.reg,
                  prog := Function.update s.prog t rest,
                  shared := s.reg t + d }

/-- Initial state: shared value 0, lock free, no call in progress. -/
def numInit {ι : Type} (progs : ι → List Int) : NumState ι :=
  { lock := none, reg := fun _ => 0, prog := progs, shared := 0 }

/-- Invariant tying a state to the grand total: the shared value plus every
delta not yet written back equals `total`, and the lock holder's register
holds the current shared value. -/
def NumInv {ι : Type} [Fintype ι] (total : Int) (s : NumState ι) : Prop :=
  s.shared + (∑ t, (s.prog t).sum) = total
  ∧ ∀ t, s.lock = some t → s.reg t = s.shared

/-- Thread programs of the C9 scenario: each `Sum.inl` thread performs one
`Add(1)` (program `[1]`), each `Sum.inr` thread one `Sub(1)` (`[-1]`). -/
def addSubProgs (N : Nat) : (Fin N ⊕ Fin N) → List Int :=
  Sum.elim (fun _ => [1]) (fun _ => [-1])

/-- Concrete schedule used as a reachability input: initial state with one
`Add(1)` thread and one `Sub(1)` thread. -/
def wState0 : NumState (Fin 1 ⊕ Fin 1) := numInit (addSubProgs 1)

/-- After the `Add(1)` thread acquires the lock and reads 0. -/
def wState1 : NumState (Fin 1 ⊕ Fin 1) :=
  { wState0 with
    lock := some (Sum.inl 0),
    reg := Function.update wState0.reg (Sum.inl 0) wState0.shared }

/-- After the `Add(1)` thread writes back `0 + 1` and releases the lock. -/
def wState2 : NumState (Fin 1 ⊕ Fin 1) :=
  { lock := none, reg := wState1.reg,
    prog := Function.update wState1.prog (Sum.inl 0) [],
    shared := wState1.reg (Sum.inl 0) + 1 }

/-- After the `Sub(1)` thread acquires the lock and reads 1. -/
def wState3 : NumState (Fin 1 ⊕ Fin 1) :=
  { wState2 with
    lock := some (Sum.inr 0),
    reg := Function.update wState2.reg (Sum.inr 0) wState2.shared }

/-- After the `Sub(1)` thread writes back `1 + -1` and releases the lock. -/
def wState4 : NumState (Fin 1 ⊕ Fin 1) :=
  { lock := none, reg := wState3.reg,
    prog := Function.update wState3.prog (Sum.inr 0) [],
    shared := wState3.reg (Sum.inr 0) + -1 }

/-- The `append zero / copy / set` sequence of `insert` computes ordinary
list insertion at any valid index. -/
theorem insert_core_eq {E : Type u} (z el : E) :
    ∀ (n : Nat) (s : List E), n ≤ s.length →
      (((s ++ [z]).take (n + 1) ++ ((s ++ [z]).drop n).take (s.length - n)).set n el)
        = s.take n ++ el :: s.drop n := by
  intro n
  induction n with
  | zero =>
    intro s _
    cases s with
    | nil => simp
    | cons a t => simp [List.take_left]
  | succ n ih =>
    intro s hs
    cases s with
    | nil => simp at hs
    | cons a t =>
      have ht : n ≤ t.length := by simpa using hs
      simp only [List.cons_append, List.take_succ_cons, List.drop_succ_cons,
        List.length_cons, Nat.succ_sub_succ, List.set_cons_succ]
      exact congrArg (a :: ·) (ih t ht)

/-- The accumulator loop of `filter` computes `List.filter`. -/
theorem foldl_keep_eq_filter {E : Type u} (keep : E → Bool) :
    ∀ (s acc : List E),
      s.foldl (fun out x => if keep x then out ++ [x] else out) acc
        = acc ++ s.filter keep := by
  intro s
  induction s with
  | nil => intro acc; simp
  | cons a t ih =>
    intro acc
    cases hk : keep a <;> simp [hk, ih, List.filter_cons]

/-- Looking up a key right after deleting it finds nothing. -/
theorem goLookup_goDelete {K V : Type u} [DecidableEq K]
    (l : AssocMap K V) (k : K) : goLookup (goDelete l k) k = none := by
  have hf : (goDelete l k).find? (fun p => decide (p.1 = k)) = none := by
    rw [List.find?_eq_none]
    intro x hx
    have hmem := (List.mem_filter.mp hx).2
    simp at hmem ⊢
    exact hmem
  simp [goLookup, hf]

/-- C1: for every guarded value and every value `x`, after `Store(x)` a
subsequent `Load()` returns `x`. -/
theorem store_then_load_eq {T : Type u} (m : Guarded T) (x : T) :
    (load (store m x)).2 = x := rfl

/-- C2: `Swap(y)` returns the value `Load()` would have returned immediately
before the call, and a subsequent `Load()` returns `y`. -/
theorem swap_returns_old_then_load_new {T : Type u} (m : Guarded T) (y : T) :
    (swap m y).2 = (load m).2 ∧ (load (swap m y).1).2 = y :=
  ⟨rfl, rfl⟩

/-- C7: the error value returned by the callback of `WithE` or `RWithE` is
returned unchanged to the caller — never swallowed, never retried — and the
lock is released before the call returns, whether the error is `none` or
`some`. -/
theorem withE_propagates_error_and_unlocks {T : Type u} {ε : Type w}
    (m : Guarded T) (f : T → T × Option ε) (g : T → Option ε) :
    (withE m f).2 = (f m.v).2 ∧ (withE m f).1.locked = false
    ∧ (rWithE m g).2 = g m.v ∧ (rWithE m g).1.locked = false :=
  ⟨rfl, rfl, rfl, rfl⟩

/-- C3: `Remove(k)` on a guarded map atomically reads-and-deletes: when `k`
is bound to `w` it returns `some w` and `ContainsKey(k)` is false afterwards;
when `k` is absent it returns `none` and the map is unchanged.  In particular
after `Insert("a", 1)`: `Remove("a")` yields `some 1`, `ContainsKey("a")` is
false, and a second `Remove("a")` yields `none`. -/
theorem mapRemove_spec {K V : Type u} [DecidableEq K]
    (m : Guarded (AssocMap K V)) (k : K) :
    (∀ w, goLookup m.v k = some w →
      (mapRemove m k).2 = some w ∧ (containsKey (mapRemove m k).1 k).2 = false)
    ∧ (goLookup m.v k = none →
      (mapRemove m k).2 = none ∧ (mapRemove m k).1.v = m.v)
    ∧ ((mapRemove (mapInsert (⟨false, []⟩ : Guarded (AssocMap String Int)) "a" 1) "a").2
        = some 1
      ∧ (containsKey (mapRemove (mapInsert (⟨false, []⟩ : Guarded (AssocMap String Int)) "a" 1) "a").1 "a").2
        = false
      ∧ (mapRemove (mapRemove (mapInsert (⟨false, []⟩ : Guarded (AssocMap String Int)) "a" 1) "a").1 "a").2
        = none) := by
  refine ⟨?_, ?_, rfl, rfl, rfl⟩
  · intro w hw
    constructor
    · simp [mapRemove, withOut, hw]
    · simp [containsKey, rWithOut, mapRemove, withOut, hw, goLookup_goDelete]
  · intro h0
    constructor
    · simp [mapRemove, withOut, h0]
    · simp [mapRemove, withOut, h0]

/-- Witness for `mapRemove_spec`: a concrete present key and a concrete
absent key. -/
theorem mapRemove_spec_witness :
    (mapRemove (⟨false, [("a", (1 : Int))]⟩ : Guarded (AssocMap String Int)) "a").2 = some 1
    ∧ (mapRemove (⟨false, ([] : AssocMap String Int)⟩ : Guarded (AssocMap String Int)) "b").2 = none := by
  have h1 := mapRemove_spec (⟨false, [("a", (1 : Int))]⟩ : Guarded (AssocMap String Int)) "a"
  have h2 := mapRemove_spec (⟨false, ([] : AssocMap String Int)⟩ : Guarded (AssocMap String Int)) "b"
  exact ⟨(h1.1 1 rfl).1, (h2.2.1 rfl).1⟩

/-- C4: on an empty guarded slice, `Shift()` and `Pop()` fail with the
EmptyContainer error; on a non-empty one, `Shift()` removes and returns the
element at index 0 and `Pop()` removes and returns the last element. -/
theorem shift_pop_spec {E : Type u} (m : Guarded (List E)) :
    (m.v = [] →
      (shift m).2 = Except.error MtxError.emptyContainer
      ∧ (pop m).2 = Except.error MtxError.emptyContainer)
    ∧ (∀ x xs, m.v = x :: xs →
      (shift m).2 = Except.ok x ∧ (shift m).1.v = xs)
    ∧ (∀ h : m.v ≠ [],
      (pop m).2 = Except.ok (m.v.getLast h) ∧ (pop m).1.v = m.v.dropLast) := by
  obtain ⟨b, s⟩ := m
  refine ⟨?_, ?_, ?_⟩
  · intro hs
    subst hs
    exact ⟨rfl, rfl⟩
  · intro x xs hs
    subst hs
    exact ⟨rfl, rfl⟩
  · intro h
    cases s with
    | nil => exact absurd rfl h
    | cons x xs => exact ⟨rfl, rfl⟩

/-- Witness for `shift_pop_spec`: the empty slice and `[1, 2, 3]`. -/
theorem shift_pop_spec_witness :
    (shift (⟨false, ([] : List Int)⟩ : Guarded (List Int))).2
      = Except.error MtxError.emptyContainer
    ∧ (shift (⟨false, [1, 2, 3]⟩ : Guarded (List Int))).2 = Except.ok 1
    ∧ (pop (⟨false, [1, 2, 3]⟩ : Guarded (List Int))).1.v = [1, 2] := by
  have h1 := shift_pop_spec (⟨false, ([] : List Int)⟩ : Guarded (List Int))
  have h2 := shift_pop_spec (⟨false, [1, 2, 3]⟩ : Guarded (List Int))
  refine ⟨(h1.1 rfl).1, (h2.2.1 1 [2, 3] rfl).1, ?_⟩
  exact (h2.2.2 (by decide)).2

/-- C5 as stated is false on the code: `Insert` with an out-of-range index
appends the zero value before the offending slice expression panics, so the
failed call leaves the slice mutated: `Insert(2, 7)` on `[4]` fails with
IndexOutOfRange yet leaves `[4, 0]`, not `[4]`. -/
theorem insert_out_of_range_mutates :
    (insert (⟨false, [4]⟩ : Guarded (List Int)) 2 7).2
      = Except.error MtxError.indexOutOfRange
    ∧ (insert (⟨false, [4]⟩ : Guarded (List Int)) 2 7).1.v ≠ [4] :=
  ⟨rfl, by decide⟩

/-- C5 amended: a failed `Get`/`Remove` (IndexOutOfRange) or `Shift`/`Pop`
(EmptyContainer) aborts with the slice contents exactly as before the call —
in particular `Remove(1)` on the length-1 slice `[4]` fails and leaves `[4]`
— but a failed `Insert` (index `i < 0` or `i > len`) leaves the original
contents with one zero value appended at the tail, not unchanged. -/
theorem failed_slice_op_state {E : Type u} [Inhabited E]
    (m : Guarded (List E)) (i : Int) (x : E) :
    (¬(0 ≤ i ∧ i < (m.v.length : Int)) →
      (sliceRemove m i).2 = Except.error MtxError.indexOutOfRange
      ∧ (sliceRemove m i).1.v = m.v)
    ∧ (¬(0 ≤ i ∧ i < (m.v.length : Int)) →
      (sliceGet m i).2 = Except.error MtxError.indexOutOfRange
      ∧ (sliceGet m i).1.v = m.v)
    ∧ (m.v = [] → (shift m).1.v = m.v ∧ (pop m).1.v = m.v)
    ∧ (¬(0 ≤ i ∧ i ≤ (m.v.length : Int)) →
      (insert m i x).2 = Except.error MtxError.indexOutOfRange
      ∧ (insert m i x).1.v = m.v ++ [(default : E)])
    ∧ ((sliceRemove (⟨false, [4]⟩ : Guarded (List Int)) 1).2
        = Except.error MtxError.indexOutOfRange
      ∧ (sliceRemove (⟨false, [4]⟩ : Guarded (List Int)) 1).1.v = [4]) := by
  refine ⟨?_, ?_, ?_, ?_, rfl, rfl⟩
  · intro h
    simp [sliceRemove, withOut, dif_neg h]
  · intro h
    simp [sliceGet, rWithOut, dif_neg h]
  · intro hs
    obtain ⟨b, s⟩ := m
    subst hs
    exact ⟨rfl, rfl⟩
  · intro h
    constructor
    · simp [insert, withOut, if_neg h]
    · simp [insert, withOut, if_neg h]

/-- Witness for `failed_slice_op_state`: index 3 on the slice `[9]`. -/
theorem failed_slice_op_state_witness :
    (sliceRemove (⟨false, [9]⟩ : Guarded (List Int)) 3).1.v = [9]
    ∧ (insert (⟨false, [9]⟩ : Guarded (List Int)) 3 5).1.v = [9, 0] := by
  have h := failed_slice_op_state (⟨false, [9]⟩ : Guarded (List Int)) 3 5
  exact ⟨(h.1 (by decide)).2, (h.2.2.2.1 (by decide)).2⟩

/-- C6: for `0 ≤ i ≤ len`, `Insert(i, x)` produces the slice with `x` at
position `i` and every element previously at a position `≥ i` shifted right
by one; for `0 ≤ i < len`, `Remove(i)` returns the element at `i` and shifts
the elements after `i` left by one, preserving the order of untouched
elements.  In particular `Insert(2, 8)` on `[4, 5, 6, 7]` yields
`[4, 5, 8, 6, 7]`. -/
theorem insert_remove_order {E : Type u} [Inhabited E]
    (m : Guarded (List E)) (i : Int) (x : E) :
    (0 ≤ i ∧ i ≤ (m.v.length : Int) →
      (insert m i x).1.v = m.v.take i.toNat ++ x :: m.v.drop i.toNat
      ∧ (insert m i x).2 = Except.ok ())
    ∧ (∀ h : 0 ≤ i ∧ i < (m.v.length : Int),
      (sliceRemove m i).2 = Except.ok (m.v.get ⟨i.toNat, by omega⟩)
      ∧ (sliceRemove m i).1.v = m.v.take i.toNat ++ m.v.drop (i.toNat + 1))
    ∧ (insert (⟨false, [4, 5, 6, 7]⟩ : Guarded (List Int)) 2 8).1.v
        = [4, 5, 8, 6, 7] := by
  refine ⟨?_, ?_, rfl⟩
  · intro h
    constructor
    · simp only [insert, withOut, if_pos h]
      exact insert_core_eq (default : E) x i.toNat m.v (by omega)
    · simp [insert, withOut, if_pos h]
  · intro h
    constructor
    · simp [sliceRemove, withOut, dif_pos h]
    · simp [sliceRemove, withOut, dif_pos h]

/-- Witness for `insert_remove_order`: `Insert(2, 8)` on `[4, 5, 6, 7]` and
`Remove(1)` on `[4, 5, 6]`. -/
theorem insert_remove_order_witness :
    (insert (⟨false, [4, 5, 6, 7]⟩ : Guarded (List Int)) 2 8).1.v
      = [4, 5, 8, 6, 7]
    ∧ (sliceRemove (⟨false, [4, 5, 6]⟩ : Guarded (List Int)) 1).2
      = Except.ok 5 := by
  have h1 := insert_remove_order (⟨false, [4, 5, 6, 7]⟩ : Guarded (List Int)) 2 8
  have h2 := insert_remove_order (⟨false, [4, 5, 6]⟩ : Guarded (List Int)) 1 0
  exact ⟨(h1.1 (by decide)).1, (h2.2.1 (by decide)).1⟩

/-- C8: `Filter(keep)` returns a new sequence of exactly the elements of the
guarded slice satisfying `keep`, in their original relative order, and leaves
the guarded contents unmodified; in particular the even values of
`[1, 2, 3, 4, 5, 6]` are `[2, 4, 6]` with the source intact. -/
theorem filter_spec {E : Type u} (m : Guarded (List E)) (keep : E → Bool) :
    (filter m keep).2 = m.v.filter keep
    ∧ (filter m keep).1.v = m.v
    ∧ (filter (⟨false, [1, 2, 3, 4, 5, 6]⟩ : Guarded (List Int))
        (fun x => x % 2 == 0)).2 = [2, 4, 6]
    ∧ (filter (⟨false, [1, 2, 3, 4, 5, 6]⟩ : Guarded (List Int))
        (fun x => x % 2 == 0)).1.v = [1, 2, 3, 4, 5, 6] := by
  refine ⟨?_, rfl, by decide, rfl⟩
  simpa [filter, rWithOut] using foldl_keep_eq_filter keep m.v []

/-- C10: `Unshift(x)` and `Insert(0, x)` are the same state transformer:
both leave `x` at index 0 with every previously held element shifted right
by one, in its original order (and `Insert(0, x)` always succeeds). -/
theorem insert_zero_eq_unshift {E : Type u} [Inhabited E]
    (m : Guarded (List E)) (x : E) :
    (insert m 0 x).1 = unshift m x ∧ (insert m 0 x).2 = Except.ok () := by
  obtain ⟨b, s⟩ := m
  constructor
  · have hc : (0 : Int) ≤ 0 ∧ (0 : Int) ≤ (s.length : Int) := by
      constructor <;> omega
    simp only [insert, unshift, withOut, withGo, withE, if_pos hc]
    have := insert_core_eq (default : E) x 0 s (Nat.zero_le _)
    simpa using this
  · have hc : (0 : Int) ≤ 0 ∧ (0 : Int) ≤ (s.length : Int) := by
      constructor <;> omega
    simp [insert, withOut, if_pos hc]

/-- Each scheduler step preserves the accounting invariant. -/
theorem numInv_step {ι : Type} [DecidableEq ι] [Fintype ι] {total : Int}
    {s s2 : NumState ι} (hinv : NumInv total s) (hstep : NumStep s s2) :
    NumInv total s2 := by
  obtain ⟨hsum, hreg⟩ := hinv
  cases hstep with
  | acquire t d rest hfree hp =>
    refine ⟨hsum, ?_⟩
    intro u hu
    have hut : t = u := by simpa using hu
    subst hut
    simp [Function.update_same]
  | commit t d rest hlock hp =>
    constructor
    · have hrt : s.reg t = s.shared := hreg t hlock
      have hupd : (∑ u, ((Function.update s.prog t rest) u).sum)
          = rest.sum + ∑ u ∈ Finset.univ.erase t, (s.prog u).sum := by
        rw [← Finset.add_sum_erase Finset.univ _ (Finset.mem_univ t)]
        congr 1
        · rw [Function.update_same]
        · exact Finset.sum_congr rfl fun u hu => by
            rw [Function.update_noteq (Finset.ne_of_mem_erase hu)]
      have horig : (∑ u, (s.prog u).sum)
          = (d + rest.sum) + ∑ u ∈ Finset.univ.erase t, (s.prog u).sum := by
        rw [← Finset.add_sum_erase Finset.univ _ (Finset.mem_univ t), hp]
        simp [List.sum_cons]
      rw [horig] at hsum
      show s.reg t + d + (∑ u, ((Function.update s.prog t rest) u).sum) = total
      rw [hupd, hrt]
      linarith
    · intro u hu
      simp at hu

/-- The invariant holds in every reachable state. -/
theorem numInv_reach {ι : Type} [DecidableEq ι] [Fintype ι] {total : Int}
    {s0 s : NumState ι} (h0 : NumInv total s0)
    (hreach : Relation.ReflTransGen NumStep s0 s) : NumInv total s := by
  induction hreach with
  | refl => exact h0
  | tail _ hstep ih => exact numInv_step ih hstep

/-- Any complete execution from the initial state — all thread programs
exhausted — ends with the shared value equal to the total of all deltas. -/
theorem numFinal_shared {ι : Type} [DecidableEq ι] [Fintype ι]
    (progs : ι → List Int) (s : NumState ι)
    (hreach : Relation.ReflTransGen NumStep (numInit progs) s)
    (hdone : ∀ t, s.prog t = []) :
    s.shared = ∑ t, (progs t).sum := by
  have h0 : NumInv (∑ t, (progs t).sum) (numInit progs) := by
    constructor
    · simp [numInit]
    · intro t ht
      simp [numInit] at ht
  have hinv := numInv_reach h0 hreach
  have hz : (∑ t, (s.prog t).sum) = 0 := by simp [hdone]
  have hacc := hinv.1
  rw [hz] at hacc
  linarith

/-- C9: starting from 0, N concurrent `Add(1)` calls interleaved arbitrarily
with N concurrent `Sub(1)` calls always leave the value at 0, with no lost
updates: each call runs its read-modify-write as one atomic exclusive
critical section, so every schedule that completes all 2N calls ends with
the shared value 0. -/
theorem add_sub_no_lost_updates (N : Nat) (s : NumState (Fin N ⊕ Fin N))
    (hreach : Relation.ReflTransGen NumStep (numInit (addSubProgs N)) s)
    (hdone : ∀ t, s.prog t = []) : s.shared = 0 := by
  have h := numFinal_shared (addSubProgs N) s hreach hdone
  have htot : (∑ t : Fin N ⊕ Fin N, ((addSubProgs N) t).sum) = 0 := by
    simp [addSubProgs, Fintype.sum_sum_type]
  rw [h, htot]

/-- Witness for `add_sub_no_lost_updates`: with one `Add(1)` thread and one
`Sub(1)` thread, the schedule add-acquire, add-commit, sub-acquire,
sub-commit reaches a completed state whose shared value is 0. -/
theorem add_sub_no_lost_updates_witness : wState4.shared = 0 := by
  have step1 : NumStep wState0 wState1 :=
    NumStep.acquire wState0 (Sum.inl 0) 1 [] rfl rfl
  have step2 : NumStep wState1 wState2 :=
    NumStep.commit wState1 (Sum.inl 0) 1 [] rfl rfl
  have step3 : NumStep wState2 wState3 :=
    NumStep.acquire wState2 (Sum.inr 0) (-1) [] rfl rfl
  have step4 : NumStep wState3 wState4 :=
    NumStep.commit wState3 (Sum.inr 0) (-1) [] rfl rfl
  have hchain : Relation.ReflTransGen NumStep wState0 wState4 :=
    Relation.ReflTransGen.tail
      (Relation.ReflTransGen.tail
        (Relation.ReflTransGen.tail
          (Relation.ReflTransGen.tail Relation.ReflTransGen.refl step1)
          step2)
        step3)
      step4
  exact add_sub_no_lost_updates 1 wState4 hchain (by decide)

end Mtx
